import Mathlib

/-
Verification of the hierarchical attention network notebook
(src/hierarchical_attention.ipynb).

The notebook builds a two-level (word, then sentence) attention classifier
in PyTorch.  This file gives a shallow embedding of its core functions over
lists of rationals:

  * tensors of shape (a, b) are lists of lists, (a, b, c) lists of lists of
    lists; rationals stand in for floating point numbers;
  * the learned modules (embedding table, the two bidirectional GRUs, the
    linear layers) are fields of a model structure; a GRU applied to a packed
    batch processes each sequence independently, so it is embedded as a
    per-sequence function from timestep vectors to timestep vectors;
  * the library functions tanh and exp used by F.tanh / F.softmax are
    transcendental, so they appear as function fields of the model; every
    theorem that needs a property of exp assumes only its strict positivity,
    which the real exponential satisfies;
  * fallible library calls (pack_padded_sequence) are embedded with Except.
-/

namespace Han

instance {ε α : Type} [DecidableEq ε] [DecidableEq α] :
    DecidableEq (Except ε α) := fun x y =>
  match x, y with
  | Except.error a, Except.error b => decidable_of_iff (a = b) (by simp)
  | Except.error _, Except.ok _ => Decidable.isFalse (by simp)
  | Except.ok _, Except.error _ => Decidable.isFalse (by simp)
  | Except.ok a, Except.ok b => decidable_of_iff (a = b) (by simp)

/-- Dot product of two rational vectors (torch.matmul of two 1-D tensors). -/
def dot (u v : List ℚ) : ℚ :=
  ((u.zip v).map fun p => p.1 * p.2).sum

/-- Pointwise sum of two vectors of equal length. -/
def addVec (u v : List ℚ) : List ℚ :=
  (u.zip v).map fun p => p.1 + p.2

/-- torch.sum over the timestep dimension of a (timesteps, features) array. -/
def sumVecs (vs : List (List ℚ)) : List ℚ :=
  vs.foldr addVec (List.replicate (vs.headD []).length 0)

/-- A learned affine layer nn.Linear(in, out): weight rows and bias. -/
def linear (W : List (List ℚ)) (b : List ℚ) (x : List ℚ) : List ℚ :=
  (W.zip b).map fun p => dot p.1 x + p.2

/-- Softmax over one score row, with the exponential abstracted as e
(F.softmax along dim 1; e is strictly positive for the real exponential). -/
def softmaxBy (e : ℚ → ℚ) (xs : List ℚ) : List ℚ :=
  xs.map fun x => e x / (xs.map e).sum

/-- X.transpose(1, 0) on a (timesteps, batch, features) array. -/
def transpose10 (X : List (List (List ℚ))) : List (List (List ℚ)) :=
  (List.range (X.headD []).length).map fun b => X.map fun t => t.getD b []

/-- Parameters of SequenceClassifierAttention: the mlp Linear layer, the
learned context vector u_w, and the batch_first flag. -/
structure Attn where
  mlpW : List (List ℚ)
  mlpB : List ℚ
  u_w : List ℚ
  batch_first : Bool

/-- SequenceClassifierAttention.forward: optionally transpose to batch-first,
score each timestep by dot(tanh(mlp x), u_w), normalise the scores with
softmax along the timestep dimension, and return the weighted sum of the raw
input vectors together with the attention weights.  th and e abstract the
library tanh and the exponential inside F.softmax. -/
def attnForward (th e : ℚ → ℚ) (A : Attn) (X0 : List (List (List ℚ))) :
    List (List ℚ) × List (List ℚ) :=
  let X := if A.batch_first then X0 else transpose10 X0
  let scores := X.map fun row =>
    row.map fun x_t => dot ((linear A.mlpW A.mlpB x_t).map th) A.u_w
  let alpha := scores.map (softmaxBy e)
  let out := (X.zip alpha).map fun p =>
    sumVecs ((p.1.zip p.2).map fun q => q.1.map fun c => q.2 * c)
  (out, alpha)

/-- get_seq_len from get_sequence_lengths: the number of items scanned before
the first occurrence of the padding value, or the full length if the padding
value never occurs. -/
def get_seq_len (padding_value : ℤ) : List ℤ → ℕ
  | [] => 0
  | item :: rest =>
    if item = padding_value then 0 else get_seq_len padding_value rest + 1

/-- get_sequence_lengths(sequences, padding_value): per-row measured length. -/
def get_sequence_lengths (sequences : List (List ℤ)) (padding_value : ℤ) :
    List ℕ :=
  sequences.map (get_seq_len padding_value)

/-- Advanced indexing xs[idx] with an index list (torch gather on dim 0). -/
def gather {α : Type} (xs : List α) (idx : List ℕ) (d : α) : List α :=
  idx.map fun i => xs.getD i d

/-- get_nonzero_sequences(sequences, lengths): torch.nonzero(lengths).view(-1)
lists, in ascending order, the row indices whose length is nonzero; the rows
at those indices are returned together with the index list. -/
def get_nonzero_sequences (sequences : List (List ℤ)) (lengths : List ℕ) :
    List (List ℤ) × List ℕ :=
  let indexes := (List.range lengths.length).filter fun i => lengths.getD i 0 != 0
  (gather sequences indexes [], indexes)

/-- HierarchicalAttentionNetwork._repack_with_zero_seqs: start from batch_size
zero rows of width seq_vectors.shape[1] and overwrite the row at each kept
index with the corresponding kept vector. -/
def repack_with_zero_seqs (seq_vectors : List (List ℚ)) (batch_size : ℕ)
    (indexes_nonzero : List ℕ) : List (List ℚ) :=
  let encoded_dim := (seq_vectors.headD []).length
  let init := List.replicate batch_size (List.replicate encoded_dim (0 : ℚ))
  (seq_vectors.zip indexes_nonzero).foldl (fun acc p => acc.set p.2 p.1) init

/-- Validity condition of torch.nn.utils.rnn.pack_padded_sequence: the call
raises on an empty batch and on nonpositive lengths.  (It also expects the
lengths in descending order, which the caller guarantees by sorting.) -/
def pack_padded_check (lengths : List ℕ) : Bool :=
  !lengths.isEmpty && lengths.all (· != 0)

/-- The error raised by pack_padded_sequence on invalid lengths. -/
def packErrMsg : String :=
  "pack_padded_sequence: cannot pack an empty batch or nonpositive lengths"

/-- pack_padded_sequence + a bidirectional recurrent encoder +
pad_packed_sequence: each row is processed independently over its own first
length timesteps, and the per-row outputs are padded with zero vectors to the
common padded length L (pad_packed_sequence pads to the longest length in the
batch). -/
def packedBiRNN (enc : List (List ℚ) → List (List ℚ)) (encDim : ℕ)
    (rows : List (List (List ℚ))) (lengths : List ℕ) (L : ℕ) :
    List (List (List ℚ)) :=
  (rows.zip lengths).map fun p =>
    let o := enc (p.1.take p.2)
    o ++ List.replicate (L - o.length) (List.replicate encDim (0 : ℚ))

/-- The (index, value) pairs of a list, in order: position i carries value
xs[i].  Used to model torch.sort, which returns values with their indices. -/
def enumIdx (xs : List ℕ) : List (ℕ × ℕ) :=
  (List.range xs.length).zip xs

/-- torch.sort(xs, descending=True): the sorted values together with the
original indices they came from.  torch gives no stability guarantee, so any
permutation achieving descending order is a faithful model; insertion sort
over (index, value) pairs is used here. -/
def torchSortDesc (xs : List ℕ) : List ℕ × List ℕ :=
  let ps := List.insertionSort (fun p q => q.2 ≤ p.2) (enumIdx xs)
  (ps.map Prod.snd, ps.map Prod.fst)

/-- torch.sort(xs) in ascending order, values together with indices. -/
def torchSortAsc (xs : List ℕ) : List ℕ × List ℕ :=
  let ps := List.insertionSort (fun p q => p.2 ≤ q.2) (enumIdx xs)
  (ps.map Prod.snd, ps.map Prod.fst)

/-- The dim() of the kept-index tensor indexes_nonzero: torch.nonzero on a
1-D tensor returns a 2-D (k, 1) index tensor and .view(-1) flattens it to
shape (k,), a 1-dimensional tensor for every k, including k = 0 and k = 1.
Its dim() is therefore the constant 1, so the source branch guarded by
indexes_nonzero.dim() > 0 is always taken. -/
def indexes_nonzero_dim (_indexes : List ℕ) : ℕ := 1

/-- The HierarchicalAttentionNetwork model: learned parameters and the
abstracted library functions (th for tanh, e for the exponential inside
softmax). -/
structure HAN where
  embed : ℤ → List ℚ
  padding_idx : ℤ
  encDim : ℕ
  wordEncoder : List (List ℚ) → List (List ℚ)
  wordAttn : Attn
  sentenceEncoder : List (List ℚ) → List (List ℚ)
  sentAttn : Attn
  outW : List (List ℚ)
  outB : List ℚ
  th : ℚ → ℚ
  e : ℚ → ℚ

/-- The per-row effect of the packed word-encoder run: embed the token row,
keep its first len embedded timesteps, encode, and pad with zero vectors to
the common padded length L.  packedBiRNN applied to the kept rows paired
with their lengths is exactly the map of this function over the rows. -/
def padEnc (m : HAN) (L : ℕ) (row : List ℤ) (len : ℕ) : List (List ℚ) :=
  let o := m.wordEncoder ((row.map m.embed).take len)
  o ++ List.replicate (L - o.length) (List.replicate m.encDim 0)

/-- Per-slot result of the word-level pass: the repacked pooled vectors, the
repacked attention weights, and the kept-index list for the slot. -/
structure SlotOut where
  vec : List (List ℚ)
  alpha : List (List ℚ)
  idx : List ℕ
  deriving DecidableEq, Inhabited

/-- X[:, i, :]: the (batch_size, n_words) token sub-batch of sentence slot i. -/
def slotRows (X : List (List (List ℤ))) (i : ℕ) : List (List ℤ) :=
  X.map fun doc => doc.getD i []

/-- The word-level encoding of one sentence slot up to (and excluding) the
attention pool, following encode_sentences_words: probe lengths, keep the
nonzero rows, sort them by descending length (the branch on
indexes_nonzero.dim() > 0 always sorts, since that dim is 1), embed, run the
packed bidirectional encoder, and undo the sort with the permutation obtained
by sorting sorted_indices ascending.  Returns the batch entering
word_attention, or the pack_padded_sequence error. -/
def slot_attention_input (m : HAN) (sentence_words : List (List ℤ)) :
    Except String (List (List (List ℚ))) :=
  let lengths := get_sequence_lengths sentence_words m.padding_idx
  let kept := get_nonzero_sequences sentence_words lengths
  let lengths_nonzero := gather lengths kept.2 0
  let sorted :=
    if indexes_nonzero_dim kept.2 > 0 then
      let s := torchSortDesc lengths_nonzero
      (s.1, s.2, gather kept.1 s.2 [])
    else
      -- unreachable: the source would use the unsorted singleton here
      (lengths_nonzero, kept.2, kept.1)
  let words_embedded := sorted.2.2.map fun row => row.map m.embed
  if pack_padded_check sorted.1 then
    let L := sorted.1.foldr max 0
    let words_encoded := packedBiRNN m.wordEncoder m.encDim words_embedded sorted.1 L
    let unsorted_indices := (torchSortAsc sorted.2.1).2
    Except.ok (gather words_encoded unsorted_indices [])
  else Except.error packErrMsg

/-- One full slot of encode_sentences_words: the word-level encode above,
then word_attention, then _repack_with_zero_seqs on both the pooled vectors
and the attention weights. -/
def encode_slot (m : HAN) (sentence_words : List (List ℤ)) :
    Except String SlotOut := do
  let W ← slot_attention_input m sentence_words
  let idx := (get_nonzero_sequences sentence_words
      (get_sequence_lengths sentence_words m.padding_idx)).2
  let att := attnForward m.th m.e m.wordAttn W
  pure ⟨repack_with_zero_seqs att.1 sentence_words.length idx,
        repack_with_zero_seqs att.2 sentence_words.length idx, idx⟩

/-- The per-slot counter update of encode_sentences_words: for index in
indexes_nonzero, sentence_lengths[index] += 1. -/
def incrLengths (acc : List ℕ) (idxs : List ℕ) : List ℕ :=
  idxs.foldl (fun a i => a.set i (a.getD i 0 + 1)) acc

/-- The slot loop of encode_sentences_words, run over the listed slot
indices in order; the first slot that fails aborts the pass. -/
def encodeSlots (m : HAN) (X : List (List (List ℤ))) :
    List ℕ → Except String (List SlotOut)
  | [] => pure []
  | i :: rest => do
    let o ← encode_slot m (slotRows X i)
    let os ← encodeSlots m X rest
    pure (o :: os)

/-- torch.cat of the per-slot (batch_size, 1, feature) pooled vectors along
the sentence dimension: document b gets the list of its slot vectors. -/
def stackSlots (batch_size : ℕ) (slots : List (List (List ℚ))) :
    List (List (List ℚ)) :=
  (List.range batch_size).map fun b => slots.map fun s => s.getD b []

/-- HierarchicalAttentionNetwork.encode_sentences_words: run the word-level
pass over every sentence slot, accumulate the per-slot pooled vectors and
attention weights, and count for each document the slots at which it was
nonzero.  Returns (encoded_sents_word, sentence_alphas, sentence_lengths). -/
def encode_sentences_words (m : HAN) (X : List (List (List ℤ))) :
    Except String (List (List (List ℚ)) × List (List (List ℚ)) × List ℕ) := do
  let n_sents := (X.headD []).length
  let os ← encodeSlots m X (List.range n_sents)
  let sentence_lengths :=
    os.foldl (fun acc o => incrLengths acc o.idx) (List.replicate X.length 0)
  pure (stackSlots X.length (os.map (·.vec)), os.map (·.alpha), sentence_lengths)

/-- HierarchicalAttentionNetwork.forward: word-level encoding, then the
sentence GRU applied directly to the full accumulated (batch, n_sentences,
feature) tensor (each document independently, batch_first), then
sentence_attention and the output Linear layer.  Note that sentence_lengths
is destructured from encode_sentences_words but never consumed. -/
def forward (m : HAN) (X : List (List (List ℤ))) :
    Except String (List (List ℚ) × List (List (List ℚ)) × List (List ℚ)) := do
  let r ← encode_sentences_words m X
  let encoded_sents := r.1.map m.sentenceEncoder
  let att := attnForward m.th m.e m.sentAttn encoded_sents
  pure (att.1.map (linear m.outW m.outB), r.2.1, att.2)

/-- Modelled from the spec: the sentence-level stage as section 4.5 of the
spec describes it, which is absent from the source forward.  The accumulated
sequence and the per-document observed sentence counts feed a second
VariableLengthEncoder application (strip documents with zero observed
sentences, sort the rest by descending count, run the packed sentence
encoder, unsort) followed by the sentence-level AttentionPool and a repack
to full batch size, before the final linear projection. -/
def forward_spec (m : HAN) (X : List (List (List ℤ))) :
    Except String (List (List ℚ) × List (List (List ℚ)) × List (List ℚ)) := do
  let r ← encode_sentences_words m X
  let slens := r.2.2
  let idx := (List.range slens.length).filter fun i => slens.getD i 0 != 0
  let keptDocs := gather r.1 idx []
  let keptLens := gather slens idx 0
  let s := torchSortDesc keptLens
  let sortedDocs := gather keptDocs s.2 []
  if pack_padded_check s.1 then
    let L := s.1.foldr max 0
    let encoded := packedBiRNN m.sentenceEncoder m.encDim sortedDocs s.1 L
    let unsorted := (torchSortAsc s.2).2
    let att := attnForward m.th m.e m.sentAttn (gather encoded unsorted [])
    let docVecs := repack_with_zero_seqs att.1 X.length idx
    let docAlpha := repack_with_zero_seqs att.2 X.length idx
    pure (docVecs.map (linear m.outW m.outB), r.2.1, docAlpha)
  else Except.error packErrMsg

/-- The attribute names an nn.Embedding module resolves: its parameters and
registered fields, per nn.Module attribute lookup.  Modules expose weight
but not data (only tensors carry a data attribute), so self.embed.data in
the source __init__ raises AttributeError. -/
def embedding_hasattr (name : String) : Bool :=
  name ∈ ["weight", "padding_idx", "num_embeddings", "embedding_dim"]

/-- The embedding-table part of HierarchicalAttentionNetwork.__init__:
nn.Embedding allocates a fresh weight table embed_weight_init, and when a
pretrained table is supplied the source runs
self.embed.data.weight.copy_(embedding_weights), whose attribute access
self.embed.data fails before any copy happens. -/
def han_init_embedding (embed_weight_init : List (List ℚ))
    (embedding_weights : Option (List (List ℚ))) :
    Except String (List (List ℚ)) :=
  match embedding_weights with
  | none => Except.ok embed_weight_init
  | some w =>
    if embedding_hasattr "data" then Except.ok w
    else Except.error "AttributeError: Embedding object has no attribute data"

/-- The word-level attention score of one timestep vector, as computed inside
SequenceClassifierAttention.forward: dot(tanh(mlp x), u_w). -/
def slotScores (m : HAN) (x_t : List ℚ) : ℚ :=
  dot ((linear m.wordAttn.mlpW m.wordAttn.mlpB x_t).map m.th) m.wordAttn.u_w

/-- The padded timestep count of a slot: the maximum measured word length
over the rows of the slot (what pad_packed_sequence pads the batch to). -/
def slotM (m : HAN) (rows : List (List ℤ)) : ℕ :=
  (get_sequence_lengths rows m.padding_idx).foldr max 0

/-- The kept-index list of a slot. -/
def slotIdx (m : HAN) (rows : List (List ℤ)) : List ℕ :=
  (get_nonzero_sequences rows (get_sequence_lengths rows m.padding_idx)).2

/-- The kept rows of a slot after embedding, packed encoding and padding, in
their original relative order: the batch entering word_attention. -/
def slotW (m : HAN) (rows : List (List ℤ)) : List (List (List ℚ)) :=
  (slotIdx m rows).map fun i => padEnc m (slotM m rows) (rows.getD i [])
    ((get_sequence_lengths rows m.padding_idx).getD i 0)

/-- The per-kept-row attention weight rows of a slot (before repacking). -/
def slotAlphaRows (m : HAN) (rows : List (List ℤ)) : List (List ℚ) :=
  (slotW m rows).map fun row => softmaxBy m.e (row.map (slotScores m))

/-- A small concrete model instance used for concrete evaluations: embedding
dimension 1 with embed t = [t], identity word encoder, a sentence encoder
whose output depends on the number of timesteps it sees (so packed and
unpacked sentence-level runs are distinguishable), all attention parameters
the 1-dimensional identity affine map, and a constant positive stand-in for
the exponential (softmax then weights all timesteps equally). -/
def m0 : HAN where
  embed := fun t => [(t : ℚ)]
  padding_idx := 1
  encDim := 1
  wordEncoder := id
  wordAttn := { mlpW := [[1]], mlpB := [0], u_w := [1], batch_first := true }
  sentenceEncoder := fun xs => xs.map fun _ => [(xs.length : ℚ)]
  sentAttn := { mlpW := [[1]], mlpB := [0], u_w := [1], batch_first := true }
  outW := [[1]]
  outB := [0]
  th := id
  e := fun _ => 1

/-- A 2-document batch with 2 sentence slots of 1 word each: document A has
both slots nonzero, document B has its second slot fully padded
(padding index 1). -/
def X0 : List (List (List ℤ)) := [[[5], [6]], [[7], [1]]]

/-- A 1-document batch whose single sentence slot is entirely padding. -/
def X1 : List (List (List ℤ)) := [[[1]]]

/-- A 1-document batch, one slot, three word positions of which only the
first is a real token (padding index 1): measured length 1 < n_words 3. -/
def X2 : List (List (List ℤ)) := [[[5, 1, 1]]]

/-- A 2-document batch with 2 sentence slots in which document 0 only uses
slot 0 and document 1 only uses slot 1: every observed sentence count (1) is
smaller than n_sentences (2), so packing by sentence counts would shorten
the sentence-level timestep axis while the unpacked code keeps both slots. -/
def X4 : List (List (List ℤ)) := [[[5], [1]], [[1], [6]]]

/-- A 2-document batch, one slot, three word positions: document 0 has
measured length 2, document 1 is fully padded at the slot. -/
def X3 : List (List (List ℤ)) := [[[5, 2, 1]], [[1, 1, 1]]]

/-- A 4-row word-level slot whose measured lengths under padding value 0 are
[3, 0, 5, 1]: the kept index set must come out as [0, 2, 3]. -/
def rows40 : List (List ℤ) :=
  [[5, 5, 5, 0, 0], [0, 0, 0, 0, 0], [7, 7, 7, 7, 7], [9, 0, 0, 0, 0]]

/-- A 3-row slot (padding index 1) with measured lengths [1, 0, 2]: kept
index set [0, 2]. -/
def rowsW : List (List ℤ) := [[5, 1], [1, 1], [7, 7]]

/-- A 2-row slot (padding index 1) with measured lengths [1, 0]: exactly one
kept row. -/
def rows10 : List (List ℤ) := [[5, 1], [1, 1]]

/-- The concrete result of encode_sentences_words on the 2-document batch
X0, extracted for use in closed witness statements. -/
def res0 : List (List (List ℚ)) × List (List (List ℚ)) × List ℕ :=
  (encode_sentences_words m0 X0).toOption.getD ([], [], [])

/-- The concrete result of encode_sentences_words on the batch X3. -/
def res7 : List (List (List ℚ)) × List (List (List ℚ)) × List ℕ :=
  (encode_sentences_words m0 X3).toOption.getD ([], [], [])

/-- The concrete slot output of encode_slot on rowsW. -/
def slot9 : SlotOut := (encode_slot m0 rowsW).toOption.getD default

/-! ### List-level helper lemmas -/

theorem getD_map_total {α β : Type} (f : α → β) (l : List α) (n : ℕ) (d : α) :
    (l.map f).getD n (f d) = f (l.getD n d) := by
  induction l generalizing n with
  | nil => rfl
  | cons x xs ih => cases n with
    | zero => rfl
    | succ k => exact ih k

theorem getD_map_lt {α β : Type} (f : α → β) (l : List α) {n : ℕ} (d : α)
    (dd : β) (h : n < l.length) : (l.map f).getD n dd = f (l.getD n d) := by
  rw [List.getD_eq_getElem _ _ (by simp only [List.length_map]; exact h),
    List.getD_eq_getElem _ _ h]
  simp

theorem map_getD_range {α : Type} (l : List α) (d : α) :
    (List.range l.length).map (fun i => l.getD i d) = l := by
  apply List.ext_getElem
  · simp
  · intro i h1 h2
    simp only [List.getElem_map, List.getElem_range]
    exact List.getD_eq_getElem l d (by simpa using h2)

theorem foldr_max_perm {l₁ l₂ : List ℕ} (h : l₁.Perm l₂) (a : ℕ) :
    l₁.foldr max a = l₂.foldr max a := by
  induction h with
  | nil => rfl
  | cons x _ ih => simp [List.foldr_cons, ih]
  | swap x y l => simp [List.foldr_cons, Nat.max_left_comm]
  | trans _ _ ih₁ ih₂ => rw [ih₁, ih₂]

theorem le_foldr_max {a : ℕ} {l : List ℕ} (h : a ∈ l) (b : ℕ) :
    a ≤ l.foldr max b := by
  induction l with
  | nil => cases h
  | cons x xs ih =>
    rcases List.mem_cons.mp h with rfl | hx
    · exact Nat.le_max_left _ _
    · exact le_trans (ih hx) (Nat.le_max_right _ _)

theorem foldr_max_le {l : List ℕ} {b c : ℕ} (hb : b ≤ c)
    (h : ∀ x ∈ l, x ≤ c) : l.foldr max b ≤ c := by
  induction l with
  | nil => exact hb
  | cons x xs ih =>
    exact Nat.max_le.mpr ⟨h x (List.mem_cons_self x xs),
      ih fun y hy => h y (List.mem_cons_of_mem x hy)⟩

theorem enumIdx_length (xs : List ℕ) : (enumIdx xs).length = xs.length := by
  simp [enumIdx]

theorem mem_enumIdx {p : ℕ × ℕ} {xs : List ℕ} (h : p ∈ enumIdx xs) :
    p.1 < xs.length ∧ xs.getD p.1 0 = p.2 := by
  unfold enumIdx at h
  rcases List.mem_iff_getElem.mp h with ⟨n, hn, hp⟩
  have hn2 : n < xs.length := by simpa [enumIdx] using hn
  have : ((List.range xs.length).zip xs)[n] = (n, xs[n]) := by
    rw [List.getElem_zip]
    simp
  rw [this] at hp
  refine ⟨hp ▸ hn2, ?_⟩
  rw [← hp]
  exact List.getD_eq_getElem xs 0 hn2

theorem enumIdx_map_fst (xs : List ℕ) :
    (enumIdx xs).map Prod.fst = List.range xs.length := by
  exact List.map_fst_zip _ _ (by simp)

theorem enumIdx_map_snd (xs : List ℕ) :
    (enumIdx xs).map Prod.snd = xs := by
  exact List.map_snd_zip _ _ (by simp)

theorem gather_length {α : Type} (xs : List α) (idx : List ℕ) (d : α) :
    (gather xs idx d).length = idx.length := by
  simp [gather]

theorem gather_getD {α : Type} (xs : List α) (idx : List ℕ) (d : α) {j : ℕ}
    (hj : j < idx.length) :
    (gather xs idx d).getD j d = xs.getD (idx.getD j 0) d := by
  unfold gather
  rw [getD_map_lt _ idx 0 d hj]

theorem gather_map {α β : Type} (f : α → β) (xs : List α) (idx : List ℕ)
    (d : α) : (gather xs idx d).map f = gather (xs.map f) idx (f d) := by
  unfold gather
  rw [List.map_map]
  exact List.map_congr_left fun i _ => (getD_map_total f xs i d).symm

theorem getD_zip {α β : Type} {A : List α} {B : List β}
    (hlen : A.length = B.length) (n : ℕ) (da : α) (db : β) :
    (A.zip B).getD n (da, db) = (A.getD n da, B.getD n db) := by
  by_cases h : n < A.length
  · have hb : n < B.length := by omega
    have hz : n < (A.zip B).length := by simp [List.length_zip]; omega
    rw [List.getD_eq_getElem _ _ hz, List.getD_eq_getElem _ _ h,
      List.getD_eq_getElem _ _ hb, List.getElem_zip]
  · have h1 : A.length ≤ n := le_of_not_lt h
    have h2 : B.length ≤ n := hlen ▸ h1
    have hz : (A.zip B).length ≤ n := by simp [List.length_zip, hlen]; omega
    rw [List.getD_eq_default _ _ hz, List.getD_eq_default _ _ h1,
      List.getD_eq_default _ _ h2]

theorem zip_gather {α β : Type} (A : List α) (B : List β) (π : List ℕ)
    (da : α) (db : β) (hlen : A.length = B.length) :
    (gather A π da).zip (gather B π db) = gather (A.zip B) π (da, db) := by
  unfold gather
  rw [List.zip_map']
  exact List.map_congr_left fun i _ => (getD_zip hlen i da db).symm

theorem gather_perm {α : Type} (xs : List α) (π : List ℕ) (d : α)
    (h : π.Perm (List.range xs.length)) : (gather xs π d).Perm xs := by
  have h2 : (gather xs π d).Perm (gather xs (List.range xs.length) d) :=
    h.map fun i => xs.getD i d
  rw [show gather xs (List.range xs.length) d =
    (List.range xs.length).map (fun i => xs.getD i d) from rfl,
    map_getD_range xs d] at h2
  exact h2

theorem getD_range {k j : ℕ} (h : j < k) : (List.range k).getD j 0 = j := by
  rw [List.getD_eq_getElem _ _ (by simpa using h)]
  simp

/-! ### Properties of the torch.sort model -/

theorem sort_pairs_mem {r : ℕ × ℕ → ℕ × ℕ → Prop} [DecidableRel r]
    {p : ℕ × ℕ} {xs : List ℕ}
    (h : p ∈ List.insertionSort r (enumIdx xs)) : p ∈ enumIdx xs :=
  (List.perm_insertionSort r (enumIdx xs)).mem_iff.mp h

theorem sort_pairs_length (r : ℕ × ℕ → ℕ × ℕ → Prop) [DecidableRel r]
    (xs : List ℕ) :
    (List.insertionSort r (enumIdx xs)).length = xs.length := by
  rw [(List.perm_insertionSort r (enumIdx xs)).length_eq, enumIdx_length]

theorem sort_snd_eq_gather (r : ℕ × ℕ → ℕ × ℕ → Prop) [DecidableRel r]
    (xs : List ℕ) :
    (List.insertionSort r (enumIdx xs)).map Prod.snd =
      gather xs ((List.insertionSort r (enumIdx xs)).map Prod.fst) 0 := by
  unfold gather
  rw [List.map_map]
  exact List.map_congr_left fun p hp => ((mem_enumIdx (sort_pairs_mem hp)).2).symm

theorem sort_fst_perm_range (r : ℕ × ℕ → ℕ × ℕ → Prop) [DecidableRel r]
    (xs : List ℕ) :
    ((List.insertionSort r (enumIdx xs)).map Prod.fst).Perm
      (List.range xs.length) := by
  rw [← enumIdx_map_fst xs]
  exact (List.perm_insertionSort r (enumIdx xs)).map Prod.fst

theorem sort_fst_mem_lt (r : ℕ × ℕ → ℕ × ℕ → Prop) [DecidableRel r]
    {xs : List ℕ} {i : ℕ}
    (h : i ∈ (List.insertionSort r (enumIdx xs)).map Prod.fst) :
    i < xs.length := by
  rcases List.mem_map.mp h with ⟨p, hp, rfl⟩
  exact (mem_enumIdx (sort_pairs_mem hp)).1

theorem torchSortDesc_vals (xs : List ℕ) :
    (torchSortDesc xs).1 = gather xs (torchSortDesc xs).2 0 :=
  sort_snd_eq_gather _ xs

theorem torchSortDesc_idx_perm (xs : List ℕ) :
    (torchSortDesc xs).2.Perm (List.range xs.length) :=
  sort_fst_perm_range _ xs

theorem torchSortDesc_idx_length (xs : List ℕ) :
    (torchSortDesc xs).2.length = xs.length := by
  unfold torchSortDesc
  simp only [List.length_map]
  exact sort_pairs_length _ xs

theorem torchSortDesc_vals_length (xs : List ℕ) :
    (torchSortDesc xs).1.length = xs.length := by
  unfold torchSortDesc
  simp only [List.length_map]
  exact sort_pairs_length _ xs

theorem torchSortDesc_vals_perm (xs : List ℕ) :
    (torchSortDesc xs).1.Perm xs := by
  rw [torchSortDesc_vals]
  exact gather_perm xs _ 0 (torchSortDesc_idx_perm xs)

theorem torchSortAsc_idx_perm (xs : List ℕ) :
    (torchSortAsc xs).2.Perm (List.range xs.length) :=
  sort_fst_perm_range _ xs

/-- Sorting a permutation of range k in ascending order recovers the inverse
permutation: composing it with the original permutation is the identity. -/
theorem torchSortAsc_inverse {π : List ℕ} {k : ℕ}
    (h : π.Perm (List.range k)) :
    (torchSortAsc π).2.length = k ∧ (∀ j ∈ (torchSortAsc π).2, j < k) ∧
      ∀ j, j < k → π.getD ((torchSortAsc π).2.getD j 0) 0 = j := by
  haveI h1 : IsTotal (ℕ × ℕ) (fun p q => p.2 ≤ q.2) := ⟨fun a b => le_total a.2 b.2⟩
  haveI h2 : IsTrans (ℕ × ℕ) (fun p q => p.2 ≤ q.2) :=
    ⟨fun a b c hab hbc => le_trans hab hbc⟩
  have hlen : π.length = k := by simpa using h.length_eq
  have hsortlen : (torchSortAsc π).2.length = k := by
    unfold torchSortAsc
    simp only [List.length_map]
    rw [sort_pairs_length _ π, hlen]
  refine ⟨hsortlen, ?_, ?_⟩
  · intro j hj
    have := sort_fst_mem_lt (fun p q : ℕ × ℕ => p.2 ≤ q.2) hj
    omega
  · intro j hj
    have hvals : (torchSortAsc π).1 = gather π (torchSortAsc π).2 0 :=
      sort_snd_eq_gather _ π
    have hvsorted : List.Sorted (· ≤ ·) (torchSortAsc π).1 := by
      have hs := List.sorted_insertionSort (fun p q : ℕ × ℕ => p.2 ≤ q.2) (enumIdx π)
      exact List.Pairwise.map Prod.snd (fun a b hab => hab) hs
    have hvperm : (torchSortAsc π).1.Perm (List.range k) := by
      have hp1 : (torchSortAsc π).1.Perm π := by
        rw [hvals]
        exact gather_perm π _ 0 (torchSortAsc_idx_perm π)
      exact hp1.trans h
    have hveq : (torchSortAsc π).1 = List.range k :=
      List.eq_of_perm_of_sorted hvperm hvsorted
        ((List.sorted_lt_range k).le_of_lt)
    have hj1 : j < (torchSortAsc π).2.length := by omega
    have := gather_getD π (torchSortAsc π).2 0 hj1
    rw [← hvals, hveq] at this
    rw [← this, getD_range hj]

/-! ### Scatter-style fold lemmas for the repack and counter updates -/

theorem getD_set_of_ne {α : Type} (l : List α) {i j : ℕ} (h : j ≠ i) (v d : α) :
    (l.set j v).getD i d = l.getD i d := by
  by_cases hi : i < l.length
  · rw [List.getD_eq_getElem _ _ (by simpa using hi), List.getD_eq_getElem _ _ hi]
    exact List.getElem_set_ne h _
  · rw [List.getD_eq_default _ _ (by simpa using le_of_not_lt hi),
      List.getD_eq_default _ _ (le_of_not_lt hi)]

theorem getD_set_self {α : Type} (l : List α) {i : ℕ} (h : i < l.length)
    (v d : α) : (l.set i v).getD i d = v := by
  rw [List.getD_eq_getElem _ _ (by simpa using h)]
  exact List.getElem_set_self _

theorem getD_replicate_lt {α : Type} {n i : ℕ} (h : i < n) (a d : α) :
    (List.replicate n a).getD i d = a := by
  rw [List.getD_eq_getElem _ _ (by simpa using h)]
  exact List.getElem_replicate _ _

theorem length_foldl_set {α : Type} (ps : List (α × ℕ)) (acc : List α) :
    (ps.foldl (fun a p => a.set p.2 p.1) acc).length = acc.length := by
  induction ps generalizing acc with
  | nil => rfl
  | cons p ps ih => rw [List.foldl_cons, ih, List.length_set]

theorem mem_foldl_set {α : Type} {x : α} (ps : List (α × ℕ)) (acc : List α)
    (h : x ∈ ps.foldl (fun a p => a.set p.2 p.1) acc) :
    x ∈ acc ∨ x ∈ ps.map Prod.fst := by
  induction ps generalizing acc with
  | nil => exact Or.inl h
  | cons p ps ih =>
    rw [List.foldl_cons] at h
    rcases ih _ h with hl | hr
    · rcases List.mem_or_eq_of_mem_set hl with hm | rfl
      · exact Or.inl hm
      · exact Or.inr (by simp)
    · exact Or.inr (List.mem_cons_of_mem _ (by simpa using hr))

theorem foldl_set_getD_notmem {α : Type} {ps : List (α × ℕ)} {i : ℕ}
    (h : i ∉ ps.map Prod.snd) (acc : List α) (d : α) :
    (ps.foldl (fun a p => a.set p.2 p.1) acc).getD i d = acc.getD i d := by
  induction ps generalizing acc with
  | nil => rfl
  | cons p ps ih =>
    simp only [List.map_cons, List.mem_cons, not_or] at h
    rw [List.foldl_cons, ih h.2]
    exact getD_set_of_ne acc (fun hpi => h.1 hpi.symm) _ d

/-- The value of a scatter of value-index pairs into an accumulator: position
i holds the value paired with index i when i occurs among the indices (the
indices being distinct), and the original accumulator entry otherwise. -/
theorem foldl_set_zip_getD {α : Type} :
    ∀ (sv : List α) (idx : List ℕ) (acc : List α) (i : ℕ) (d : α),
      sv.length = idx.length → idx.Nodup → i < acc.length →
      ((sv.zip idx).foldl (fun a p => a.set p.2 p.1) acc).getD i d =
        if i ∈ idx then sv.getD (idx.indexOf i) d else acc.getD i d
  | sv, [], acc, i, d, _, _, _ => by
    simp [List.zip_nil_right]
  | [], j :: idx, acc, i, d, hlen, _, _ => by
    simp at hlen
  | v :: sv, j :: idx, acc, i, d, hlen, hnd, hi => by
    have hlen2 : sv.length = idx.length := by simpa using hlen
    have hnd2 : idx.Nodup := hnd.of_cons
    have hjnotin : j ∉ idx := by
      simpa using (List.nodup_cons.mp hnd).1
    rw [List.zip_cons_cons, List.foldl_cons]
    by_cases hij : i = j
    · subst hij
      have hnotmem : i ∉ (sv.zip idx).map Prod.snd := by
        intro hmem
        exact hjnotin (by
          have hsub := List.map_snd_zip sv idx (le_of_eq hlen2.symm)
          rw [hsub] at hmem
          exact hmem)
      rw [foldl_set_getD_notmem hnotmem _ d]
      rw [getD_set_self acc hi]
      simp [List.indexOf_cons]
    · rw [foldl_set_zip_getD sv idx _ i d hlen2 hnd2 (by simpa using hi)]
      rw [getD_set_of_ne acc (fun hji => hij hji.symm) v d]
      by_cases hmem : i ∈ idx
      · simp only [List.mem_cons, hmem, or_true, if_true, hij, false_or]
        rw [List.indexOf_cons]
        have : (j == i) = false := by simpa using fun hji => hij hji.symm
        simp [this, hmem]
      · have : i ∉ j :: idx := by simp [hij, hmem]
        simp [hmem, this]

/-! ### Properties of repack, the sentence counters, and the length probe -/

theorem repack_length (sv : List (List ℚ)) (bs : ℕ) (idx : List ℕ) :
    (repack_with_zero_seqs sv bs idx).length = bs := by
  unfold repack_with_zero_seqs
  rw [length_foldl_set]
  simp

theorem repack_getD (sv : List (List ℚ)) (bs : ℕ) (idx : List ℕ) {i : ℕ}
    (hlen : sv.length = idx.length) (hnd : idx.Nodup) (hi : i < bs) :
    (repack_with_zero_seqs sv bs idx).getD i [] =
      if i ∈ idx then sv.getD (idx.indexOf i) []
      else List.replicate (sv.headD []).length 0 := by
  unfold repack_with_zero_seqs
  rw [foldl_set_zip_getD sv idx _ i [] hlen hnd (by simp [hi])]
  by_cases hmem : i ∈ idx
  · simp [hmem]
  · simp only [hmem, if_false]
    exact getD_replicate_lt hi _ _

theorem repack_mem (sv : List (List ℚ)) (bs : ℕ) (idx : List ℕ)
    {r : List ℚ} (hr : r ∈ repack_with_zero_seqs sv bs idx) :
    r ∈ sv ∨ r = List.replicate (sv.headD []).length 0 := by
  unfold repack_with_zero_seqs at hr
  rcases mem_foldl_set _ _ hr with hl | hrr
  · exact Or.inr (List.mem_replicate.mp hl).2
  · rcases List.mem_map.mp hrr with ⟨p, hp, rfl⟩
    exact Or.inl (List.of_mem_zip hp).1

theorem incrLengths_length (acc idxs : List ℕ) :
    (incrLengths acc idxs).length = acc.length := by
  unfold incrLengths
  induction idxs generalizing acc with
  | nil => rfl
  | cons j js ih => rw [List.foldl_cons, ih, List.length_set]

theorem incrLengths_getD_notmem {idxs : List ℕ} {d : ℕ} (h : d ∉ idxs)
    (acc : List ℕ) : (incrLengths acc idxs).getD d 0 = acc.getD d 0 := by
  unfold incrLengths
  induction idxs generalizing acc with
  | nil => rfl
  | cons j js ih =>
    simp only [List.mem_cons, not_or] at h
    rw [List.foldl_cons]
    have := ih h.2 (acc.set j (acc.getD j 0 + 1))
    unfold incrLengths at this
    rw [this, getD_set_of_ne acc (fun hji => h.1 hji.symm)]

theorem incrLengths_getD {idxs : List ℕ} (hnd : idxs.Nodup) (acc : List ℕ)
    {d : ℕ} (hd : d < acc.length) :
    (incrLengths acc idxs).getD d 0 =
      acc.getD d 0 + (if d ∈ idxs then 1 else 0) := by
  induction idxs generalizing acc with
  | nil => simp [incrLengths]
  | cons j js ih =>
    have hnd2 : js.Nodup := hnd.of_cons
    have hjnotin : j ∉ js := (List.nodup_cons.mp hnd).1
    unfold incrLengths
    rw [List.foldl_cons]
    by_cases hdj : d = j
    · subst hdj
      have hrec := incrLengths_getD_notmem hjnotin (acc.set d (acc.getD d 0 + 1))
      unfold incrLengths at hrec
      rw [hrec, getD_set_self acc hd]
      simp
    · have hrec := ih hnd2 (acc.set j (acc.getD j 0 + 1))
        (by rw [List.length_set]; exact hd)
      unfold incrLengths at hrec
      rw [hrec, getD_set_of_ne acc (fun hji => hdj hji.symm)]
      simp [hdj]

theorem get_seq_len_le_length (p : ℤ) (s : List ℤ) :
    get_seq_len p s ≤ s.length := by
  induction s with
  | nil => exact le_refl 0
  | cons x xs ih =>
    unfold get_seq_len
    by_cases hx : x = p
    · simp [hx]
    · simp only [hx, if_false, List.length_cons]
      omega

theorem get_sequence_lengths_length (rows : List (List ℤ)) (p : ℤ) :
    (get_sequence_lengths rows p).length = rows.length := by
  simp [get_sequence_lengths]

theorem get_sequence_lengths_getD (rows : List (List ℤ)) (p : ℤ) {i : ℕ}
    (hi : i < rows.length) :
    (get_sequence_lengths rows p).getD i 0 = get_seq_len p (rows.getD i []) := by
  unfold get_sequence_lengths
  rw [getD_map_lt _ rows [] 0 hi]

theorem mem_nonzero_idx (sequences : List (List ℤ)) (lengths : List ℕ)
    (i : ℕ) : i ∈ (get_nonzero_sequences sequences lengths).2 ↔
      i < lengths.length ∧ lengths.getD i 0 ≠ 0 := by
  simp [get_nonzero_sequences, List.mem_filter, List.mem_range]

theorem nonzero_idx_nodup (sequences : List (List ℤ)) (lengths : List ℕ) :
    (get_nonzero_sequences sequences lengths).2.Nodup :=
  (List.nodup_range _).filter _

theorem nonzero_idx_sorted (sequences : List (List ℤ)) (lengths : List ℕ) :
    List.Sorted (· < ·) (get_nonzero_sequences sequences lengths).2 :=
  List.Pairwise.filter _ (List.sorted_lt_range _)

theorem nonzero_fst (sequences : List (List ℤ)) (lengths : List ℕ) :
    (get_nonzero_sequences sequences lengths).1 =
      gather sequences (get_nonzero_sequences sequences lengths).2 [] := rfl

/-! ### The word-level slot pass -/

theorem ext_getD {α : Type} (d : α) {l₁ l₂ : List α}
    (hlen : l₁.length = l₂.length)
    (h : ∀ j, j < l₁.length → l₁.getD j d = l₂.getD j d) : l₁ = l₂ := by
  apply List.ext_getElem hlen
  intro i h1 h2
  have := h i h1
  rwa [List.getD_eq_getElem _ _ h1, List.getD_eq_getElem _ _ h2] at this

theorem gather_getD2 {α : Type} (xs : List α) (idx : List ℕ) (d dd : α)
    {j : ℕ} (hj : j < idx.length) :
    (gather xs idx d).getD j dd = xs.getD (idx.getD j 0) d := by
  unfold gather
  rw [getD_map_lt _ idx 0 dd hj]

/-- Gathering by a permutation of range k and then by the inverse
permutation produced by the ascending sort restores the original list. -/
theorem gather_gather_inverse {α : Type} (E : List α) (π : List ℕ) (k : ℕ)
    (d1 d2 : α) (hE : E.length = k) (hπ : π.Perm (List.range k)) :
    gather (gather E π d2) (torchSortAsc π).2 d1 = E := by
  obtain ⟨hσlen, hσmem, hσinv⟩ := torchSortAsc_inverse hπ
  have hπlen : π.length = k := by simpa using hπ.length_eq
  apply ext_getD d1
  · rw [gather_length, hσlen, hE]
  · intro j hj1
    have hj : j < k := by rw [gather_length, hσlen] at hj1; exact hj1
    have hjσ : j < (torchSortAsc π).2.length := by omega
    rw [gather_getD2 _ _ d1 d1 hjσ]
    have htmem : (torchSortAsc π).2.getD j 0 ∈ (torchSortAsc π).2 := by
      rw [List.getD_eq_getElem _ _ hjσ]
      exact List.getElem_mem _
    have htk : (torchSortAsc π).2.getD j 0 < k := hσmem _ htmem
    have htπ : (torchSortAsc π).2.getD j 0 < π.length := by omega
    rw [gather_getD2 E π d2 d1 htπ, hσinv j hj,
      List.getD_eq_getElem E d2 (by omega), List.getD_eq_getElem E d1 (by omega)]

/-- The maximum kept length equals the maximum measured length: dropping the
zero-length rows does not change the maximum. -/
theorem kept_max_eq (sequences : List (List ℤ)) (lengths : List ℕ) :
    (gather lengths (get_nonzero_sequences sequences lengths).2 0).foldr max 0 =
      lengths.foldr max 0 := by
  apply le_antisymm
  · apply foldr_max_le (Nat.zero_le _)
    intro x hx
    rcases List.mem_map.mp hx with ⟨i, hi, rfl⟩
    rcases (mem_nonzero_idx sequences lengths i).mp hi with ⟨hilt, _⟩
    have : lengths.getD i 0 ∈ lengths := by
      rw [List.getD_eq_getElem _ _ hilt]
      exact List.getElem_mem _
    exact le_foldr_max this 0
  · apply foldr_max_le (Nat.zero_le _)
    intro x hx
    rcases List.mem_iff_getElem.mp hx with ⟨i, hilt, rfl⟩
    by_cases hz : lengths[i] = 0
    · rw [hz]; exact Nat.zero_le _
    · have hmem : i ∈ (get_nonzero_sequences sequences lengths).2 :=
        (mem_nonzero_idx sequences lengths i).mpr
          ⟨hilt, by rw [List.getD_eq_getElem _ _ hilt]; exact hz⟩
      have : lengths[i] ∈ gather lengths (get_nonzero_sequences sequences lengths).2 0 := by
        apply List.mem_map.mpr
        exact ⟨i, hmem, by rw [List.getD_eq_getElem _ _ hilt]⟩
      exact le_foldr_max this 0

/-- Kept lengths are never zero: each entry of the gathered kept-length list
comes from an index that passed the nonzero filter. -/
theorem kept_lens_ne_zero (sequences : List (List ℤ)) (lengths : List ℕ)
    {x : ℕ}
    (hx : x ∈ gather lengths (get_nonzero_sequences sequences lengths).2 0) :
    x ≠ 0 := by
  rcases List.mem_map.mp hx with ⟨i, hi, rfl⟩
  exact ((mem_nonzero_idx sequences lengths i).mp hi).2

/-- With an empty kept set the slot pass reaches pack_padded_sequence with
an empty batch and fails. -/
theorem slot_attention_input_empty (m : HAN) (rows : List (List ℤ))
    (h : (get_nonzero_sequences rows (get_sequence_lengths rows m.padding_idx)).2 = []) :
    slot_attention_input m rows = Except.error packErrMsg := by
  unfold slot_attention_input
  dsimp only
  rw [h]
  simp [indexes_nonzero_dim, gather, torchSortDesc, enumIdx, pack_padded_check]

/-- The central characterization of the word-level slot pass: with at least
one kept row, the batch entering word_attention is exactly the kept rows in
their original relative order, each row embedded, truncated to its measured
length, encoded, and padded to the common padded length (the maximum
measured length of the slot).  The sort and the inverse permutation cancel. -/
theorem slot_attention_input_eq (m : HAN) (rows : List (List ℤ))
    (hk : (get_nonzero_sequences rows (get_sequence_lengths rows m.padding_idx)).2 ≠ []) :
    slot_attention_input m rows = Except.ok
      ((get_nonzero_sequences rows (get_sequence_lengths rows m.padding_idx)).2.map
        fun i => padEnc m ((get_sequence_lengths rows m.padding_idx).foldr max 0)
          (rows.getD i []) ((get_sequence_lengths rows m.padding_idx).getD i 0)) := by
  unfold slot_attention_input
  dsimp only
  set lengths := get_sequence_lengths rows m.padding_idx with hlengths
  set idx := (get_nonzero_sequences rows lengths).2 with hidxdef
  set keptLens := gather lengths idx 0 with hkl
  have hLl : lengths.length = rows.length := get_sequence_lengths_length rows m.padding_idx
  have hidxlt : ∀ i ∈ idx, i < rows.length := by
    intro i hi
    have := ((mem_nonzero_idx rows lengths i).mp hi).1
    omega
  have hklen : keptLens.length = idx.length := gather_length lengths idx 0
  have hπperm : (torchSortDesc keptLens).2.Perm (List.range idx.length) := by
    have := torchSortDesc_idx_perm keptLens
    rwa [hklen] at this
  have hπlen : (torchSortDesc keptLens).2.length = idx.length := by
    rw [torchSortDesc_idx_length, hklen]
  have hvals : (torchSortDesc keptLens).1 = gather keptLens (torchSortDesc keptLens).2 0 :=
    torchSortDesc_vals keptLens
  have hvalsperm : (torchSortDesc keptLens).1.Perm keptLens :=
    torchSortDesc_vals_perm keptLens
  have hcheck : pack_padded_check (torchSortDesc keptLens).1 = true := by
    have hkne : keptLens ≠ [] := by
      intro hc
      apply hk
      have : idx.length = 0 := by rw [← hklen, hc]; rfl
      exact List.length_eq_zero.mp this
    have hvne : (torchSortDesc keptLens).1 ≠ [] := by
      intro hc
      apply hkne
      have := hvalsperm.length_eq
      rw [hc] at this
      exact List.length_eq_zero.mp this.symm
    have hvnz : ∀ x ∈ (torchSortDesc keptLens).1, x ≠ 0 := fun x hx =>
      kept_lens_ne_zero rows lengths (hvalsperm.mem_iff.mp hx)
    unfold pack_padded_check
    rw [Bool.and_eq_true, List.all_eq_true]
    constructor
    · simp [List.isEmpty_iff, hvne]
    · intro x hx
      simpa using hvnz x hx
  rw [if_pos (by norm_num [indexes_nonzero_dim] : indexes_nonzero_dim idx > 0)]
  dsimp only
  rw [if_pos hcheck]
  refine congrArg Except.ok ?_
  have hL : (torchSortDesc keptLens).1.foldr max 0 = lengths.foldr max 0 :=
    (foldr_max_perm hvalsperm 0).trans (kept_max_eq rows lengths)
  have hEMBlen : (rows.map fun row => row.map m.embed).length = lengths.length := by
    rw [List.length_map, hLl]
  -- push the embedding map through the two gathers
  rw [nonzero_fst rows lengths, ← hidxdef]
  rw [gather_map, gather_map]
  simp only [List.map_nil]
  -- expose the per-row encode as a map over a zip of gathers
  unfold packedBiRNN
  simp only [hL]
  rw [hvals]
  rw [zip_gather _ _ _ _ _ (by rw [gather_length, hklen])]
  rw [hkl]
  rw [zip_gather _ _ _ _ _ hEMBlen]
  rw [gather_map, gather_map]
  have hπperm2 : (torchSortDesc (gather lengths idx 0)).2.Perm (List.range idx.length) := by
    rw [← hkl]
    exact hπperm
  rw [gather_gather_inverse _ _ idx.length _ _ (gather_length _ _ _) hπperm2]
  -- pointwise identification of the kept-row encodes
  unfold gather
  apply List.map_congr_left
  intro i hi
  have hilt : i < rows.length := hidxlt i hi
  have hWl : i < ((rows.map fun row => row.map m.embed).zip lengths).length := by
    rw [List.length_zip, hEMBlen, Nat.min_self, hLl]
    exact hilt
  rw [getD_map_lt _ ((rows.map fun row => row.map m.embed).zip lengths) ([], 0) _ hWl]
  rw [getD_zip hEMBlen i [] 0]
  rw [getD_map_lt (fun row => row.map m.embed) rows [] [] hilt]
  rfl

/-! ### The encode_slot wrapper -/

theorem encode_slot_eq_of_input (m : HAN) (rows : List (List ℤ))
    (W : List (List (List ℚ))) (hW : slot_attention_input m rows = Except.ok W) :
    encode_slot m rows = Except.ok
      ⟨repack_with_zero_seqs (attnForward m.th m.e m.wordAttn W).1 rows.length
          (get_nonzero_sequences rows (get_sequence_lengths rows m.padding_idx)).2,
        repack_with_zero_seqs (attnForward m.th m.e m.wordAttn W).2 rows.length
          (get_nonzero_sequences rows (get_sequence_lengths rows m.padding_idx)).2,
        (get_nonzero_sequences rows (get_sequence_lengths rows m.padding_idx)).2⟩ := by
  unfold encode_slot
  rw [hW]
  rfl

theorem encode_slot_error_of_empty (m : HAN) (rows : List (List ℤ))
    (h : (get_nonzero_sequences rows (get_sequence_lengths rows m.padding_idx)).2 = []) :
    encode_slot m rows = Except.error packErrMsg := by
  unfold encode_slot
  rw [slot_attention_input_empty m rows h]
  rfl

theorem encode_slot_ok_nonempty (m : HAN) (rows : List (List ℤ)) (o : SlotOut)
    (hok : encode_slot m rows = Except.ok o) :
    (get_nonzero_sequences rows (get_sequence_lengths rows m.padding_idx)).2 ≠ [] := by
  intro hc
  rw [encode_slot_error_of_empty m rows hc] at hok
  exact Except.noConfusion hok

theorem encode_slot_ok_elim (m : HAN) (rows : List (List ℤ)) (o : SlotOut)
    (hok : encode_slot m rows = Except.ok o) :
    o = ⟨repack_with_zero_seqs
        (attnForward m.th m.e m.wordAttn
          ((get_nonzero_sequences rows (get_sequence_lengths rows m.padding_idx)).2.map
            fun i => padEnc m ((get_sequence_lengths rows m.padding_idx).foldr max 0)
              (rows.getD i []) ((get_sequence_lengths rows m.padding_idx).getD i 0))).1
        rows.length
        (get_nonzero_sequences rows (get_sequence_lengths rows m.padding_idx)).2,
      repack_with_zero_seqs
        (attnForward m.th m.e m.wordAttn
          ((get_nonzero_sequences rows (get_sequence_lengths rows m.padding_idx)).2.map
            fun i => padEnc m ((get_sequence_lengths rows m.padding_idx).foldr max 0)
              (rows.getD i []) ((get_sequence_lengths rows m.padding_idx).getD i 0))).2
        rows.length
        (get_nonzero_sequences rows (get_sequence_lengths rows m.padding_idx)).2,
      (get_nonzero_sequences rows (get_sequence_lengths rows m.padding_idx)).2⟩ := by
  have hne := encode_slot_ok_nonempty m rows o hok
  rw [encode_slot_eq_of_input m rows _ (slot_attention_input_eq m rows hne)] at hok
  exact ((Except.ok.injEq _ _).mp hok).symm

theorem encode_slot_all_zero (m : HAN) (rows : List (List ℤ))
    (h : ∀ r ∈ rows, get_seq_len m.padding_idx r = 0) :
    encode_slot m rows = Except.error packErrMsg := by
  apply encode_slot_error_of_empty
  show (List.range (get_sequence_lengths rows m.padding_idx).length).filter _ = []
  apply List.filter_eq_nil_iff.mpr
  intro i hi
  have hilt : i < (get_sequence_lengths rows m.padding_idx).length := List.mem_range.mp hi
  have hrlt : i < rows.length := by
    rw [get_sequence_lengths_length] at hilt
    exact hilt
  have hmem : rows.getD i [] ∈ rows := by
    rw [List.getD_eq_getElem _ _ hrlt]
    exact List.getElem_mem _
  rw [get_sequence_lengths_getD rows _ hrlt, h _ hmem]
  simp

/-! ### The attention pool -/

theorem attnForward_alpha (th e : ℚ → ℚ) (A : Attn) (hbf : A.batch_first = true)
    (X : List (List (List ℚ))) :
    (attnForward th e A X).2 = X.map fun row =>
      softmaxBy e (row.map fun x_t => dot ((linear A.mlpW A.mlpB x_t).map th) A.u_w) := by
  unfold attnForward
  rw [hbf]
  simp [List.map_map]

theorem attnForward_out_length (th e : ℚ → ℚ) (A : Attn)
    (hbf : A.batch_first = true) (X : List (List (List ℚ))) :
    (attnForward th e A X).1.length = X.length := by
  unfold attnForward
  rw [hbf]
  simp

theorem sum_map_div (l : List ℚ) (f : ℚ → ℚ) (S : ℚ) :
    (l.map fun x => f x / S).sum = (l.map f).sum / S := by
  induction l with
  | nil => simp
  | cons x xs ih => rw [List.map_cons, List.sum_cons, List.map_cons, List.sum_cons,
      ih, div_add_div_same]

/-- Softmax over a nonempty score row with a strictly positive exponential:
the weights are nonnegative and sum to one. -/
theorem softmaxBy_sum_one {e : ℚ → ℚ} (hpos : ∀ x, 0 < e x) (xs : List ℚ)
    (hne : xs ≠ []) :
    (softmaxBy e xs).sum = 1 ∧ ∀ w ∈ softmaxBy e xs, 0 ≤ w := by
  have hS : 0 < (xs.map e).sum := by
    apply List.sum_pos
    · intro x hx
      rcases List.mem_map.mp hx with ⟨y, _, rfl⟩
      exact hpos y
    · simpa using hne
  constructor
  · unfold softmaxBy
    rw [sum_map_div xs e _, div_self (ne_of_gt hS)]
  · intro w hw
    rcases List.mem_map.mp hw with ⟨x, _, rfl⟩
    exact le_of_lt (div_pos (hpos x) hS)

theorem softmaxBy_length (e : ℚ → ℚ) (xs : List ℚ) :
    (softmaxBy e xs).length = xs.length := by
  simp [softmaxBy]

theorem padEnc_ne_nil (m : HAN) {L : ℕ} (hL : 0 < L) (row : List ℤ) (len : ℕ) :
    padEnc m L row len ≠ [] := by
  intro hc
  have := congrArg List.length hc
  simp only [padEnc, List.length_append, List.length_replicate, List.length_nil] at this
  omega

theorem padEnc_length (m : HAN)
    (henc : ∀ xs, (m.wordEncoder xs).length = xs.length) (L : ℕ)
    (row : List ℤ) (len : ℕ) (hlen : len ≤ row.length) (hL : len ≤ L) :
    (padEnc m L row len).length = L := by
  have ho : (m.wordEncoder ((row.map m.embed).take len)).length = len := by
    rw [henc, List.length_take, List.length_map]
    omega
  simp only [padEnc, List.length_append, List.length_replicate, ho]
  omega

/-! ### The slot loop -/

theorem encode_slot_idx (m : HAN) (rows : List (List ℤ)) (o : SlotOut)
    (hok : encode_slot m rows = Except.ok o) :
    o.idx = (get_nonzero_sequences rows (get_sequence_lengths rows m.padding_idx)).2 := by
  rw [encode_slot_ok_elim m rows o hok]

theorem encodeSlots_ok (m : HAN) (X : List (List (List ℤ))) :
    ∀ (slots : List ℕ) (os : List SlotOut),
      encodeSlots m X slots = Except.ok os →
      os.length = slots.length ∧
      ∀ j, j < slots.length →
        encode_slot m (slotRows X (slots.getD j 0)) = Except.ok (os.getD j default)
  | [], os, h => by
    have hos : os = [] := by
      have : (Except.ok [] : Except String (List SlotOut)) = Except.ok os := h
      exact ((Except.ok.injEq _ _).mp this).symm
    subst hos
    exact ⟨rfl, fun j hj => absurd hj (by simp)⟩
  | i :: rest, os, h => by
    unfold encodeSlots at h
    cases h1 : encode_slot m (slotRows X i) with
    | error err =>
      rw [h1] at h
      exact Except.noConfusion h
    | ok o =>
      rw [h1] at h
      cases h2 : encodeSlots m X rest with
      | error err =>
        rw [h2] at h
        exact Except.noConfusion h
      | ok os2 =>
        rw [h2] at h
        have hos : os = o :: os2 := ((Except.ok.injEq _ _).mp h).symm
        subst hos
        obtain ⟨hl, hj⟩ := encodeSlots_ok m X rest os2 h2
        refine ⟨by simp [hl], ?_⟩
        intro j hjlt
        cases j with
        | zero => simpa using h1
        | succ n =>
          have := hj n (by simpa using hjlt)
          simpa using this

theorem encode_sentences_words_ok (m : HAN) (X : List (List (List ℤ)))
    (res : List (List (List ℚ)) × List (List (List ℚ)) × List ℕ)
    (h : encode_sentences_words m X = Except.ok res) :
    ∃ os, encodeSlots m X (List.range (X.headD []).length) = Except.ok os ∧
      res = (stackSlots X.length (os.map (·.vec)), os.map (·.alpha),
        os.foldl (fun acc o => incrLengths acc o.idx)
          (List.replicate X.length 0)) := by
  unfold encode_sentences_words at h
  dsimp only at h
  cases h2 : encodeSlots m X (List.range (X.headD []).length) with
  | error err =>
    rw [h2] at h
    exact Except.noConfusion h
  | ok os =>
    rw [h2] at h
    exact ⟨os, rfl, ((Except.ok.injEq _ _).mp h).symm⟩

/-- Folding the per-slot counter updates over the processed slots counts,
for each document, the slots at which its row had nonzero measured length. -/
theorem counts_foldl (m : HAN) (X : List (List (List ℤ))) :
    ∀ (slots : List ℕ) (os : List SlotOut),
      encodeSlots m X slots = Except.ok os →
      ∀ (acc : List ℕ) (d : ℕ), d < acc.length → acc.length = X.length →
      (os.foldl (fun a o => incrLengths a o.idx) acc).getD d 0 =
        acc.getD d 0 + slots.countP (fun j =>
          get_seq_len m.padding_idx ((X.getD d []).getD j []) != 0)
  | [], os, h, acc, d, hd, hacc => by
    have hos : os = [] := ((Except.ok.injEq _ _).mp h).symm
    subst hos
    simp
  | i :: rest, os, h, acc, d, hd, hacc => by
    unfold encodeSlots at h
    cases h1 : encode_slot m (slotRows X i) with
    | error err => rw [h1] at h; exact Except.noConfusion h
    | ok o =>
      rw [h1] at h
      cases h2 : encodeSlots m X rest with
      | error err => rw [h2] at h; exact Except.noConfusion h
      | ok os2 =>
        rw [h2] at h
        have hos : os = o :: os2 := ((Except.ok.injEq _ _).mp h).symm
        subst hos
        have hXd : d < X.length := by omega
        have hslotlen : (slotRows X i).length = X.length := by simp [slotRows]
        have hidx := encode_slot_idx m (slotRows X i) o h1
        have hnd : o.idx.Nodup := by
          rw [hidx]
          exact nonzero_idx_nodup _ _
        have hblt : ∀ t ∈ o.idx, t < acc.length := by
          intro t ht
          rw [hidx] at ht
          have := ((mem_nonzero_idx _ _ t).mp ht).1
          rw [get_sequence_lengths_length, hslotlen] at this
          omega
        have hmemiff : d ∈ o.idx ↔
            get_seq_len m.padding_idx ((X.getD d []).getD i []) ≠ 0 := by
          rw [hidx, mem_nonzero_idx]
          have hdl : d < (get_sequence_lengths (slotRows X i) m.padding_idx).length := by
            rw [get_sequence_lengths_length, hslotlen]
            exact hXd
          have hds : d < (slotRows X i).length := by rw [hslotlen]; exact hXd
          constructor
          · intro hcon
            have := hcon.2
            rw [get_sequence_lengths_getD _ _ hds] at this
            unfold slotRows at this
            rwa [getD_map_lt (fun doc => doc.getD i []) X [] [] hXd] at this
          · intro hne
            refine ⟨hdl, ?_⟩
            rw [get_sequence_lengths_getD _ _ hds]
            unfold slotRows
            rwa [getD_map_lt (fun doc => doc.getD i []) X [] [] hXd]
        rw [List.foldl_cons]
        rw [counts_foldl m X rest os2 h2 (incrLengths acc o.idx) d
          (by rw [incrLengths_length]; exact hd)
          (by rw [incrLengths_length]; exact hacc)]
        rw [incrLengths_getD hnd acc hd]
        rw [List.countP_cons]
        by_cases hdm : d ∈ o.idx
        · have hbeq : (get_seq_len m.padding_idx ((X.getD d []).getD i []) != 0) = true := by
            simpa using hmemiff.mp hdm
          rw [if_pos hdm]
          simp only [hbeq, if_true]
          omega
        · have hbeq : (get_seq_len m.padding_idx ((X.getD d []).getD i []) != 0) = false := by
            simp only [bne_eq_false_iff_eq]
            by_contra hc
            exact hdm (hmemiff.mpr hc)
          rw [if_neg hdm]
          simp only [hbeq, Bool.false_eq_true, if_false]
          omega

/-! ### The attention weights of one slot -/

theorem headD_eq_getD {α : Type} (l : List α) (d : α) : l.headD d = l.getD 0 d := by
  cases l <;> rfl

theorem encode_slot_alpha_eq (m : HAN) (rows : List (List ℤ)) (o : SlotOut)
    (hbf : m.wordAttn.batch_first = true)
    (hok : encode_slot m rows = Except.ok o) :
    o.alpha = repack_with_zero_seqs (slotAlphaRows m rows) rows.length
      (slotIdx m rows) := by
  rw [encode_slot_ok_elim m rows o hok]
  dsimp only
  rw [attnForward_alpha m.th m.e m.wordAttn hbf]
  rfl

theorem slotW_length (m : HAN) (rows : List (List ℤ)) :
    (slotW m rows).length = (slotIdx m rows).length := by
  simp [slotW]

theorem slotAlphaRows_length (m : HAN) (rows : List (List ℤ)) :
    (slotAlphaRows m rows).length = (slotIdx m rows).length := by
  simp [slotAlphaRows, slotW]

theorem slotIdx_lt (m : HAN) (rows : List (List ℤ)) {i : ℕ}
    (hi : i ∈ slotIdx m rows) : i < rows.length := by
  have := ((mem_nonzero_idx rows (get_sequence_lengths rows m.padding_idx) i).mp hi).1
  rwa [get_sequence_lengths_length] at this

theorem slotM_pos (m : HAN) (rows : List (List ℤ)) {i : ℕ}
    (hi : i ∈ slotIdx m rows) : 0 < slotM m rows := by
  obtain ⟨hlt, hnz⟩ :=
    (mem_nonzero_idx rows (get_sequence_lengths rows m.padding_idx) i).mp hi
  have hmem : (get_sequence_lengths rows m.padding_idx).getD i 0 ∈
      get_sequence_lengths rows m.padding_idx := by
    rw [List.getD_eq_getElem _ _ hlt]
    exact List.getElem_mem _
  have := le_foldr_max hmem 0
  unfold slotM
  omega

/-- Each attention weight row of a slot is the softmax of a nonempty score
row (the kept row padded to at least one timestep). -/
theorem slotAlphaRows_getD (m : HAN) (rows : List (List ℤ)) {t : ℕ}
    (ht : t < (slotIdx m rows).length) (hM : 0 < slotM m rows) :
    ∃ scores : List ℚ, scores ≠ [] ∧
      (slotAlphaRows m rows).getD t [] = softmaxBy m.e scores := by
  have htW : t < (slotW m rows).length := by rw [slotW_length]; exact ht
  refine ⟨((slotW m rows).getD t []).map (slotScores m), ?_, ?_⟩
  · have hWne : (slotW m rows).getD t [] ≠ [] := by
      unfold slotW
      rw [getD_map_lt _ (slotIdx m rows) 0 [] ht]
      exact padEnc_ne_nil m hM _ _
    simpa using hWne
  · unfold slotAlphaRows
    rw [getD_map_lt _ (slotW m rows) [] [] htW]

/-- With a length-preserving word encoder, every attention weight row of a
slot has exactly the padded timestep count slotM as its width. -/
theorem slotAlphaRows_width (m : HAN) (rows : List (List ℤ))
    (henc : ∀ xs, (m.wordEncoder xs).length = xs.length)
    {r : List ℚ} (hr : r ∈ slotAlphaRows m rows) : r.length = slotM m rows := by
  unfold slotAlphaRows at hr
  rcases List.mem_map.mp hr with ⟨row, hrow, rfl⟩
  unfold slotW at hrow
  rcases List.mem_map.mp hrow with ⟨i, hi, rfl⟩
  rw [softmaxBy_length, List.length_map]
  apply padEnc_length m henc
  · obtain ⟨hlt, _⟩ :=
      (mem_nonzero_idx rows (get_sequence_lengths rows m.padding_idx) i).mp hi
    have hrlt : i < rows.length := by
      rwa [get_sequence_lengths_length] at hlt
    rw [get_sequence_lengths_getD rows _ hrlt]
    exact get_seq_len_le_length _ _
  · obtain ⟨hlt, _⟩ :=
      (mem_nonzero_idx rows (get_sequence_lengths rows m.padding_idx) i).mp hi
    have hmem : (get_sequence_lengths rows m.padding_idx).getD i 0 ∈
        get_sequence_lengths rows m.padding_idx := by
      rw [List.getD_eq_getElem _ _ hlt]
      exact List.getElem_mem _
    exact le_foldr_max hmem 0

/-- The shape of the repacked attention weights of one slot: batch_size rows
of width slotM each. -/
theorem encode_slot_alpha_shape (m : HAN) (rows : List (List ℤ)) (o : SlotOut)
    (hbf : m.wordAttn.batch_first = true)
    (henc : ∀ xs, (m.wordEncoder xs).length = xs.length)
    (hok : encode_slot m rows = Except.ok o) :
    o.alpha.length = rows.length ∧
      ∀ r ∈ o.alpha, r.length = slotM m rows := by
  rw [encode_slot_alpha_eq m rows o hbf hok]
  refine ⟨repack_length _ _ _, ?_⟩
  intro r hr
  rcases repack_mem _ _ _ hr with hmem | heq
  · exact slotAlphaRows_width m rows henc hmem
  · have hkne : slotIdx m rows ≠ [] := encode_slot_ok_nonempty m rows o hok
    have hlen0 : 0 < (slotIdx m rows).length := List.length_pos.mpr hkne
    have hM : 0 < slotM m rows := by
      have hmem0 : slotIdx m rows ≠ [] := hkne
      rcases List.exists_mem_of_ne_nil _ hmem0 with ⟨i, hi⟩
      exact slotM_pos m rows hi
    have hhead : (slotAlphaRows m rows).headD [] ∈ slotAlphaRows m rows := by
      rw [headD_eq_getD]
      rw [List.getD_eq_getElem _ _ (by rw [slotAlphaRows_length]; exact hlen0)]
      exact List.getElem_mem _
    rw [heq, List.length_replicate]
    exact slotAlphaRows_width m rows henc hhead

/-- The attention weight row of a kept document index, after repacking. -/
theorem encode_slot_alpha_kept (m : HAN) (rows : List (List ℤ)) (o : SlotOut)
    (hbf : m.wordAttn.batch_first = true)
    (hok : encode_slot m rows = Except.ok o) {i : ℕ} (hi : i ∈ o.idx) :
    ∃ scores : List ℚ, scores ≠ [] ∧
      o.alpha.getD i [] = softmaxBy m.e scores := by
  have hidx := encode_slot_idx m rows o hok
  rw [hidx] at hi
  have hi2 : i ∈ slotIdx m rows := hi
  have hlen : (slotAlphaRows m rows).length = (slotIdx m rows).length :=
    slotAlphaRows_length m rows
  have hnd : (slotIdx m rows).Nodup := nonzero_idx_nodup _ _
  have hilt : i < rows.length := slotIdx_lt m rows hi2
  rw [encode_slot_alpha_eq m rows o hbf hok]
  rw [repack_getD _ _ _ hlen hnd hilt, if_pos hi2]
  have ht : (slotIdx m rows).indexOf i < (slotIdx m rows).length :=
    List.indexOf_lt_length.mpr hi2
  exact slotAlphaRows_getD m rows ht (slotM_pos m rows hi2)

/-! ### Error propagation through the slot loop -/

theorem slot_attention_input_cases (m : HAN) (rows : List (List ℤ)) :
    (∃ W, slot_attention_input m rows = Except.ok W) ∨
      slot_attention_input m rows = Except.error packErrMsg := by
  unfold slot_attention_input
  dsimp only
  rw [if_pos (by norm_num [indexes_nonzero_dim] :
    indexes_nonzero_dim (get_nonzero_sequences rows
      (get_sequence_lengths rows m.padding_idx)).2 > 0)]
  dsimp only
  by_cases hc : pack_padded_check (torchSortDesc (gather
      (get_sequence_lengths rows m.padding_idx)
      (get_nonzero_sequences rows (get_sequence_lengths rows m.padding_idx)).2 0)).1 = true
  · rw [if_pos hc]
    exact Or.inl ⟨_, rfl⟩
  · rw [if_neg hc]
    exact Or.inr rfl

theorem encode_slot_cases (m : HAN) (rows : List (List ℤ)) :
    (∃ o, encode_slot m rows = Except.ok o) ∨
      encode_slot m rows = Except.error packErrMsg := by
  rcases slot_attention_input_cases m rows with ⟨W, hW⟩ | herr
  · exact Or.inl ⟨_, encode_slot_eq_of_input m rows W hW⟩
  · right
    unfold encode_slot
    rw [herr]
    rfl

theorem encodeSlots_cases (m : HAN) (X : List (List (List ℤ))) :
    ∀ slots : List ℕ,
      (∃ os, encodeSlots m X slots = Except.ok os) ∨
        encodeSlots m X slots = Except.error packErrMsg
  | [] => Or.inl ⟨[], rfl⟩
  | i :: rest => by
    rcases encode_slot_cases m (slotRows X i) with ⟨o, ho⟩ | ho
    · rcases encodeSlots_cases m X rest with ⟨os, hos⟩ | hos
      · left
        refine ⟨o :: os, ?_⟩
        unfold encodeSlots
        rw [ho, hos]
        rfl
      · right
        unfold encodeSlots
        rw [ho, hos]
        rfl
    · right
      unfold encodeSlots
      rw [ho]
      rfl

/-- A batch containing a sentence slot at which every document is empty
cannot be encoded: the loop propagates the pack_padded_sequence error. -/
theorem encode_sentences_words_all_zero_slot (m : HAN)
    (X : List (List (List ℤ))) (i : ℕ) (hi : i < (X.headD []).length)
    (h : ∀ r ∈ slotRows X i, get_seq_len m.padding_idx r = 0) :
    encode_sentences_words m X = Except.error packErrMsg := by
  have hslot : encode_slot m (slotRows X i) = Except.error packErrMsg :=
    encode_slot_all_zero m (slotRows X i) h
  have herr : encodeSlots m X (List.range (X.headD []).length) =
      Except.error packErrMsg := by
    rcases encodeSlots_cases m X (List.range (X.headD []).length) with ⟨os, hos⟩ | hos
    · exfalso
      obtain ⟨hlen, hjs⟩ := encodeSlots_ok m X _ os hos
      have hrl : i < (List.range (X.headD []).length).length := by simpa using hi
      have := hjs i hrl
      rw [getD_range hi] at this
      rw [hslot] at this
      exact Except.noConfusion this
    · exact hos
  unfold encode_sentences_words
  dsimp only
  rw [herr]
  rfl

theorem get_seq_len_eq_takeWhile (p : ℤ) (s : List ℤ) :
    get_seq_len p s = (s.takeWhile (fun x => x != p)).length := by
  induction s with
  | nil => rfl
  | cons x xs ih =>
    unfold get_seq_len
    by_cases hx : x = p
    · simp [hx, List.takeWhile_cons]
    · simp [hx, List.takeWhile_cons, ih]

theorem toOption_getD_eq {ε α : Type} (x : Except ε α) (d : α)
    (h : x.isOk = true) : x = Except.ok (x.toOption.getD d) := by
  cases x with
  | error e => exact Bool.noConfusion h
  | ok a => rfl

/-! ### The claims -/

/-- C1: the spec says the forward pass feeds the accumulated sentence-vector
sequence and the observed sentence counts into a second variable-length
encoding (strip, sort by descending count, pack) before the sentence-level
attention pool.  The source forward does not: it runs the sentence GRU
directly over the full padded tensor and never consumes sentence_lengths.
On the batch X4 (both documents observe 1 sentence out of 2 slots) the
spec-described pass pads the sentence axis only to the maximum observed
count 1, while the source keeps all 2 slots, so already the widths of the
returned document-level attention weights differ. -/
theorem claim1_sentence_lengths_unused : forward m0 X4 ≠ forward_spec m0 X4 := by
  intro h
  exact absurd (congrArg (fun r => r.map fun t => t.2.2.map List.length) h)
    (by decide)

/-- C2 counterexample: on the batch X1, whose single sentence slot is empty
for every document, the forward pass does not complete without error (the
claim says it skips the slot, substitutes zeros and completes). -/
theorem claim2_counterexample : (forward m0 X1).isOk = false := by
  decide

/-- C2 amended: for a sentence slot at which every document has measured
length 0, the pass does not skip encode-and-pool; it reaches
pack_padded_sequence with an empty kept batch, which raises, and the whole
forward pass propagates the error (no zero slice is substituted and no
counters are incremented, because encode_sentences_words returns nothing). -/
theorem claim2_all_empty_slot_error (m : HAN) (X : List (List (List ℤ)))
    (i : ℕ) (hi : i < (X.headD []).length)
    (h : ∀ r ∈ slotRows X i, get_seq_len m.padding_idx r = 0) :
    encode_sentences_words m X = Except.error packErrMsg ∧
      forward m X = Except.error packErrMsg := by
  have henc := encode_sentences_words_all_zero_slot m X i hi h
  refine ⟨henc, ?_⟩
  unfold forward
  rw [henc]
  rfl

/-- C2 witness: the concrete batch X1 satisfies the hypotheses at slot 0 and
the pass errors. -/
theorem claim2_witness :
    0 < (X1.headD []).length ∧
      encode_sentences_words m0 X1 = Except.error packErrMsg ∧
      forward m0 X1 = Except.error packErrMsg :=
  ⟨by decide, claim2_all_empty_slot_error m0 X1 0 (by decide) (by decide)⟩

/-- C3: get_sequence_lengths measures each row as the number of positions
before the first occurrence of the padding sentinel (the length of the
longest sentinel-free prefix), which is the row length when the sentinel
never occurs; the three reference rows evaluate as the spec states. -/
theorem claim3_sequence_lengths (sequences : List (List ℤ)) (p : ℤ) :
    get_sequence_lengths sequences p =
      sequences.map (fun s => (s.takeWhile (fun x => x != p)).length) ∧
    get_sequence_lengths [[5, 7, 1, 1, 1], [1, 1, 1, 1, 1], [5, 7, 9, 3, 2]] 1 =
      [2, 0, 5] := by
  constructor
  · unfold get_sequence_lengths
    exact List.map_congr_left fun s _ => get_seq_len_eq_takeWhile p s
  · decide

/-- C4: the kept-index set of a word-level slot is produced in ascending
original order, and the batch entering the attention pool is exactly the
kept rows in that original relative order (each embedded, truncated to its
measured length, encoded and padded); for measured lengths [3, 0, 5, 1] the
kept index set is [0, 2, 3]. -/
theorem claim4_row_order_preserved (m : HAN) (rows : List (List ℤ))
    (hk : slotIdx m rows ≠ []) :
    List.Sorted (· < ·) (slotIdx m rows) ∧
    slot_attention_input m rows = Except.ok (slotW m rows) ∧
    (get_nonzero_sequences rows40 (get_sequence_lengths rows40 0)).2 = [0, 2, 3] := by
  refine ⟨nonzero_idx_sorted rows _, ?_, by decide⟩
  exact slot_attention_input_eq m rows hk

/-- C4 witness: the slot rowsW (measured lengths [1, 0, 2]) has kept set
[0, 2] and its attention input is the kept rows in original order. -/
theorem claim4_witness :
    slotIdx m0 rowsW ≠ [] ∧
      (List.Sorted (· < ·) (slotIdx m0 rowsW) ∧
        slot_attention_input m0 rowsW = Except.ok (slotW m0 rowsW) ∧
        (get_nonzero_sequences rows40 (get_sequence_lengths rows40 0)).2 =
          [0, 2, 3]) :=
  ⟨by decide, claim4_row_order_preserved m0 rowsW (by decide)⟩

/-- C5: _repack_with_zero_seqs returns exactly batch_size rows; row i is the
kept vector assigned to index i when i is kept and the zero vector of the
kept width otherwise; the reference instance evaluates as the spec states. -/
theorem claim5_repack (sv : List (List ℚ)) (bs : ℕ) (idx : List ℕ) (dim : ℕ)
    (hlen : sv.length = idx.length) (hnd : idx.Nodup)
    (_hlt : ∀ i ∈ idx, i < bs) (hw : ∀ v ∈ sv, v.length = dim)
    (hne : sv ≠ []) :
    (repack_with_zero_seqs sv bs idx).length = bs ∧
    (∀ i, i < bs → (repack_with_zero_seqs sv bs idx).getD i [] =
      if i ∈ idx then sv.getD (idx.indexOf i) [] else List.replicate dim 0) ∧
    repack_with_zero_seqs [[1, 1], [2, 2]] 4 [1, 3] =
      [[0, 0], [1, 1], [0, 0], [2, 2]] := by
  have hdim : (sv.headD []).length = dim := by
    cases sv with
    | nil => exact absurd rfl hne
    | cons v vs => exact hw v (List.mem_cons_self v vs)
  refine ⟨repack_length sv bs idx, ?_, by decide⟩
  intro i hi
  rw [repack_getD sv bs idx hlen hnd hi, hdim]

/-- C5 witness: the reference instance, through the theorem. -/
theorem claim5_witness :
    (repack_with_zero_seqs [[1, 1], [2, 2]] 4 [1, 3]).length = 4 ∧
      (repack_with_zero_seqs [[1, 1], [2, 2]] 4 [1, 3]).getD 3 [] = [2, 2] := by
  have h := claim5_repack [[1, 1], [2, 2]] 4 [1, 3] 2 (by decide) (by decide)
    (by decide) (by decide) (by decide)
  exact ⟨h.1, (h.2.1 3 (by norm_num)).trans (by decide)⟩

/-- C6: after encode_sentences_words succeeds, each document counter equals
the number of sentence slots at which that document had nonzero measured
word length. -/
theorem claim6_sentence_counts (m : HAN) (X : List (List (List ℤ)))
    (res : List (List (List ℚ)) × List (List (List ℚ)) × List ℕ) (d : ℕ)
    (hok : encode_sentences_words m X = Except.ok res) (hd : d < X.length) :
    res.2.2.getD d 0 = (List.range (X.headD []).length).countP
      (fun j => get_seq_len m.padding_idx ((X.getD d []).getD j []) != 0) := by
  obtain ⟨os, hos, hres⟩ := encode_sentences_words_ok m X res hok
  rw [hres]
  dsimp only
  rw [counts_foldl m X (List.range (X.headD []).length) os hos
    (List.replicate X.length 0) d (by simpa using hd) (by simp),
    getD_replicate_lt hd 0 0]
  simp

/-- C6 witness: on the batch X0 (document A has both slots nonzero, document
B only its first), the counts are 2 and 1. -/
theorem claim6_witness :
    encode_sentences_words m0 X0 = Except.ok res0 ∧
      res0.2.2.getD 1 0 = (List.range (X0.headD []).length).countP
        (fun j => get_seq_len m0.padding_idx ((X0.getD 1 []).getD j []) != 0) ∧
      res0.2.2.getD 0 0 = 2 ∧ res0.2.2.getD 1 0 = 1 := by
  have hok : encode_sentences_words m0 X0 = Except.ok res0 :=
    toOption_getD_eq _ ([], [], []) (by decide)
  exact ⟨hok, claim6_sentence_counts m0 X0 res0 1 hok (by decide),
    by decide, by decide⟩

/-- C7 counterexample: on the batch X2 (1 document, 1 slot, 3 word
positions, measured length 1) the returned word-level attention weight array
has width 1, not n_words = 3: pad_packed_sequence pads only to the longest
kept length. -/
theorem claim7_counterexample :
    ((X2.getD 0 []).getD 0 []).length = 3 ∧
      (forward m0 X2).map (fun r => r.2.1.map fun a => a.map List.length) =
        Except.ok [[1]] :=
  ⟨by decide, by rfl⟩

/-- C7 amended: each word-level attention weight array returned for a slot
has batch_size rows whose common width is the maximum measured word length
of that slot (the padded timestep count), not the full word axis. -/
theorem claim7_alpha_shape (m : HAN) (X : List (List (List ℤ)))
    (res : List (List (List ℚ)) × List (List (List ℚ)) × List ℕ)
    (hbf : m.wordAttn.batch_first = true)
    (henc : ∀ xs, (m.wordEncoder xs).length = xs.length)
    (hok : encode_sentences_words m X = Except.ok res) :
    res.2.1.length = (X.headD []).length ∧
    ∀ i, i < (X.headD []).length →
      (res.2.1.getD i []).length = X.length ∧
      ∀ r ∈ res.2.1.getD i [], r.length = slotM m (slotRows X i) := by
  obtain ⟨os, hos, hres⟩ := encode_sentences_words_ok m X res hok
  obtain ⟨hoslen, hjs⟩ := encodeSlots_ok m X _ os hos
  rw [hres]
  dsimp only
  constructor
  · simp [hoslen]
  · intro i hi
    have hio : i < os.length := by rw [hoslen]; simpa using hi
    have hsloti := hjs i (by simpa using hi)
    rw [getD_range hi] at hsloti
    rw [getD_map_lt (fun o => o.alpha) os default [] hio]
    have hshape := encode_slot_alpha_shape m (slotRows X i) (os.getD i default)
      hbf henc hsloti
    refine ⟨?_, hshape.2⟩
    rw [hshape.1]
    simp [slotRows]

/-- C7 witness: on the batch X3 the single slot has maximum measured length
2, and both rows of the returned weight array have width 2. -/
theorem claim7_witness :
    encode_sentences_words m0 X3 = Except.ok res7 ∧
      res7.2.1.length = 1 ∧ (res7.2.1.getD 0 []).length = 2 ∧
      ((res7.2.1.getD 0 []).getD 1 []).length = slotM m0 (slotRows X3 0) := by
  have hok : encode_sentences_words m0 X3 = Except.ok res7 :=
    toOption_getD_eq _ ([], [], []) (by decide)
  have h := claim7_alpha_shape m0 X3 res7 rfl (fun xs => rfl) hok
  refine ⟨hok, h.1.trans (by decide), (h.2 0 (by decide)).1.trans (by decide),
    (h.2 0 (by decide)).2 _ ?_⟩
  rw [List.getD_eq_getElem _ _ (by decide : 1 < (res7.2.1.getD 0 []).length)]
  exact List.getElem_mem _

/-- C8: the spec says a supplied pretrained embedding table is copied into
the embedding weight at construction.  The source line
self.embed.data.weight.copy_(embedding_weights) reads the attribute data on
the Embedding module, which modules do not have, so construction raises
AttributeError for every supplied table instead of copying it. -/
theorem claim8_pretrained_embedding_raises (init w : List (List ℚ)) :
    han_init_embedding init (some w) =
      Except.error "AttributeError: Embedding object has no attribute data" := rfl

/-- C9: for every kept row of a slot (measured length greater than zero),
the attention weights returned for that row are nonnegative and sum to one,
assuming only that the exponential inside softmax is strictly positive. -/
theorem claim9_attention_weights (m : HAN) (rows : List (List ℤ))
    (o : SlotOut) (hbf : m.wordAttn.batch_first = true)
    (hpos : ∀ x, 0 < m.e x) (hok : encode_slot m rows = Except.ok o)
    (i : ℕ) (hi : i ∈ o.idx) :
    (o.alpha.getD i []).sum = 1 ∧ ∀ w ∈ o.alpha.getD i [], 0 ≤ w := by
  obtain ⟨scores, hne, heq⟩ := encode_slot_alpha_kept m rows o hbf hok hi
  rw [heq]
  exact softmaxBy_sum_one hpos scores hne

/-- C9 witness: the kept row 0 of the slot rowsW has weights summing to 1. -/
theorem claim9_witness :
    encode_slot m0 rowsW = Except.ok slot9 ∧
      (slot9.alpha.getD 0 []).sum = 1 ∧
      0 ≤ (slot9.alpha.getD 0 []).getD 0 0 := by
  have hok : encode_slot m0 rowsW = Except.ok slot9 :=
    toOption_getD_eq _ default (by decide)
  have h := claim9_attention_weights m0 rowsW slot9 rfl (fun x => one_pos) hok
    0 (by decide)
  refine ⟨hok, h.1, h.2 _ ?_⟩
  rw [List.getD_eq_getElem _ _ (by decide : 0 < (slot9.alpha.getD 0 []).length)]
  exact List.getElem_mem _

/-- C10 counterexample: with exactly one kept row ([0] for rows10) the
dim() > 0 guard still holds (the kept-index tensor is 1-dimensional for
every size), so the source takes the sort branch rather than constructing
the singleton batch without a sort. -/
theorem claim10_counterexample :
    (get_nonzero_sequences rows10 (get_sequence_lengths rows10 1)).2 = [0] ∧
      indexes_nonzero_dim
        (get_nonzero_sequences rows10 (get_sequence_lengths rows10 1)).2 > 0 := by
  decide

/-- C10 amended: with exactly one kept row the word-level encode completes
without error; the sort branch is taken (its dim() > 0 guard always holds),
but sorting the singleton returns it unchanged with the identity
permutation, so the sort is a no-op in effect. -/
theorem claim10_singleton_slot (m : HAN) (rows : List (List ℤ)) (i0 : ℕ)
    (h : slotIdx m rows = [i0]) :
    (encode_slot m rows).isOk = true ∧
    torchSortDesc (gather (get_sequence_lengths rows m.padding_idx) [i0] 0) =
      (gather (get_sequence_lengths rows m.padding_idx) [i0] 0, [0]) ∧
    indexes_nonzero_dim (slotIdx m rows) > 0 := by
  refine ⟨?_, rfl, by norm_num [indexes_nonzero_dim]⟩
  have hk : (get_nonzero_sequences rows (get_sequence_lengths rows m.padding_idx)).2 ≠ [] := by
    intro hc
    have hc2 : slotIdx m rows = [] := hc
    rw [h] at hc2
    exact List.noConfusion hc2
  rw [encode_slot_eq_of_input m rows _ (slot_attention_input_eq m rows hk)]
  rfl

/-- C10 witness: the slot rows10 keeps exactly row 0; the encode succeeds
and sorting the singleton length list is the identity. -/
theorem claim10_witness :
    slotIdx m0 rows10 = [0] ∧
      ((encode_slot m0 rows10).isOk = true ∧
        torchSortDesc (gather (get_sequence_lengths rows10 m0.padding_idx) [0] 0) =
          (gather (get_sequence_lengths rows10 m0.padding_idx) [0] 0, [0]) ∧
        indexes_nonzero_dim (slotIdx m0 rows10) > 0) := by
  have h : slotIdx m0 rows10 = [0] := by decide
  exact ⟨h, claim10_singleton_slot m0 rows10 0 h⟩

end Han
